import Mathlib

/-!
Shallow embedding of `src/generate_ics.py` (school lunch menu → ICS calendar
pipeline) together with proofs about its specification.

Python strings are modelled as `List Char`, Python `datetime.date` values as a
`Date` structure of year/month/day numerals (Python's `date` constructor only
admits valid Gregorian dates in years 1..9999, captured by `Date.valid`), and
`date.toordinal()` as `dateOrdinal` (the proleptic Gregorian ordinal,
`0001-01-01` ↦ 1).  Fallible code (`parse_menu_day`, which can raise on a
malformed `date` field) returns `Except`.  The nondeterministic UTC timestamp
taken in `build_calendar` is passed in as an explicit `now` parameter.
-/

/-- Python `str` modelled as a list of characters. -/
abbrev Str := List Char

/-- `Str.replace target repl` for a single-character `target`, modelling
Python's `str.replace` with a one-character pattern (every occurrence is
replaced, left to right). -/
def replaceChar (target : Char) (repl : Str) : Str → Str
  | [] => []
  | c :: rest =>
      if c = target then repl ++ replaceChar target repl rest
      else c :: replaceChar target repl rest

/-- `_escape_ics` from the source: replace `\` by `\\`, then `;` by `\;`,
then `,` by `\,`, then a literal newline by `\n` (backslash + letter n),
in exactly that order (innermost replace runs first). -/
def _escape_ics (text : Str) : Str :=
  replaceChar '\n' ['\\', 'n']
    (replaceChar ',' ['\\', ',']
      (replaceChar ';' ['\\', ';']
        (replaceChar '\\' ['\\', '\\'] text)))

/-- Per-character specification of the ICS escaping rule. -/
def escICSChar (c : Char) : Str :=
  if c = '\\' then ['\\', '\\']
  else if c = ';' then ['\\', ';']
  else if c = ',' then ['\\', ',']
  else if c = '\n' then ['\\', 'n']
  else [c]

/-- Inverse of the escaping rule: a backslash followed by `n` decodes to a
newline, a backslash followed by any other character decodes to that
character, and everything else is copied through. -/
def unescapeICS : Str → Str
  | [] => []
  | [c] => [c]
  | c1 :: c2 :: rest =>
      if c1 = '\\' then (if c2 = 'n' then '\n' else c2) :: unescapeICS rest
      else c1 :: unescapeICS (c2 :: rest)

/-- A Python `datetime.date` value: year, month, day numerals. -/
structure Date where
  year : Nat
  month : Nat
  day : Nat
deriving DecidableEq, Repr

/-- Leap-year test of the Gregorian calendar (as used by `datetime`). -/
def isLeapYear (y : Nat) : Bool :=
  y % 4 = 0 && (y % 100 ≠ 0 || y % 400 = 0)

/-- Number of days in a month of the Gregorian calendar. -/
def daysInMonth (y m : Nat) : Nat :=
  if m = 2 then (if isLeapYear y then 29 else 28)
  else if m = 4 ∨ m = 6 ∨ m = 9 ∨ m = 11 then 30
  else 31

/-- The invariant every constructible Python `datetime.date` satisfies:
years 1..9999, valid month, valid day of month. -/
def Date.valid (d : Date) : Prop :=
  1 ≤ d.year ∧ d.year ≤ 9999 ∧ 1 ≤ d.month ∧ d.month ≤ 12 ∧
    1 ≤ d.day ∧ d.day ≤ daysInMonth d.year d.month

instance (d : Date) : Decidable d.valid := by
  unfold Date.valid; infer_instance

/-- `date.toordinal()`: the proleptic Gregorian ordinal of a date
(`0001-01-01` is day 1).  Computed with the standard days-from-civil
formulas. -/
def dateOrdinal (y m d : Nat) : Nat :=
  let yAdj := if m ≤ 2 then y - 1 else y
  let era := yAdj / 400
  let yoe := yAdj % 400
  let mp := if m ≤ 2 then m + 9 else m - 3
  let doy := (153 * mp + 2) / 5 + (d - 1)
  let doe := yoe * 365 + yoe / 4 - yoe / 100 + doy
  era * 146097 + doe - 305

/-- Ordinal of a `Date` value. -/
def Date.ord (d : Date) : Nat := dateOrdinal d.year d.month d.day

/-- Python's `date.weekday()` expressed on ordinals: Monday = 0.
(`0001-01-01`, ordinal 1, was a Monday in the proleptic Gregorian
calendar.) -/
def weekday (n : Nat) : Nat := (n - 1) % 7

/-- `start - timedelta(days=start.weekday())`: the Monday of the week
containing ordinal `n`. -/
def mondayOf (n : Nat) : Nat := n - weekday n

/-- The loop of `_week_starts`, with explicit fuel (the loop runs while
`current <= end`, stepping 7 days, so `fin + 1 - current` iterations of
fuel are always enough). -/
def weekStartsAux : Nat → Nat → Nat → List Nat
  | 0, _, _ => []
  | fuel + 1, current, fin =>
      if current ≤ fin then current :: weekStartsAux fuel (current + 7) fin
      else []

/-- `_week_starts(start, end)` on ordinals: start from the Monday of
`start`'s week and yield every 7th day while `current <= end`. -/
def weekStarts (start fin : Nat) : List Nat :=
  weekStartsAux (fin + 1 - mondayOf start) (mondayOf start) fin

/-! ### Normalizer data model (`parse_menu_day` and friends) -/

/-- Is `c` an ASCII digit? -/
def isDigitCh (c : Char) : Bool := 48 ≤ c.toNat && c.toNat ≤ 57

/-- Numeric value of an ASCII digit. -/
def digitVal (c : Char) : Nat := c.toNat - 48

/-- `datetime.date.fromisoformat` on the canonical `YYYY-MM-DD` form: ten
characters, digits in the date positions, hyphens as separators, and the
resulting numbers must form a constructible `datetime.date`
(year 1..9999, month 1..12, day within the month).  Anything else is a
parse failure (`None`). -/
def parseIsoDate : Str → Option Date
  | [y3, y2, y1, y0, s1, m1, m0, s2, d1, d0] =>
      if isDigitCh y3 && isDigitCh y2 && isDigitCh y1 && isDigitCh y0 &&
          (s1 == '-') && isDigitCh m1 && isDigitCh m0 && (s2 == '-') &&
          isDigitCh d1 && isDigitCh d0 then
        let y := ((digitVal y3 * 10 + digitVal y2) * 10 + digitVal y1) * 10 + digitVal y0
        let m := digitVal m1 * 10 + digitVal m0
        let d := digitVal d1 * 10 + digitVal d0
        if 1 ≤ y && 1 ≤ m && m ≤ 12 && 1 ≤ d && d ≤ daysInMonth y m then
          some ⟨y, m, d⟩
        else none
      else none
  | _ => none

/-- A school as returned by `fetch_schools`. -/
structure School where
  slug : Str
  name : Str
deriving DecidableEq, Repr

/-- The `food` sub-object of a raw menu item; `name = none` models a missing
or null name (`some []` models an empty-string name, equally falsy). -/
structure RawFood where
  name : Option Str
deriving DecidableEq, Repr

/-- A raw entry of a `menu_items` list.  `food = none` models a missing or
falsy `food` sub-object; `category = none` models a missing or null
category (`item.get("category") or ""`). -/
structure RawItem where
  is_station_header : Bool
  food : Option RawFood
  category : Option Str
deriving DecidableEq, Repr

/-- A raw per-day object of the weekly payload: a `date` string and a
`menu_items` list (a missing or null `menu_items` collapses to `[]`, as in
`day.get("menu_items") or []`). -/
structure RawDay where
  date : Str
  menu_items : List RawItem
deriving DecidableEq, Repr

/-- The canonical day record produced by `parse_menu_day`. -/
structure MenuDay where
  date : Date
  entrees : List Str
  foods : List Str
deriving DecidableEq, Repr

/-- `str.lower`, for the ASCII range relevant to category names. -/
def strLower (s : Str) : Str := s.map Char.toLower

/-- The item loop of `parse_menu_day`: skip station headers, items without a
`food` sub-object and items without a resolvable (non-falsy) name; append
every retained name to `foods` (second component) and, when the
case-insensitive category is `entree` or `main`, also to `entrees` (first
component). -/
def collectItems : List RawItem → List Str × List Str
  | [] => ([], [])
  | item :: rest =>
      if item.is_station_header then collectItems rest
      else
        match item.food with
        | none => collectItems rest
        | some food =>
            match food.name with
            | none => collectItems rest
            | some name =>
                if name = [] then collectItems rest
                else
                  let category := strLower (item.category.getD [])
                  let p := collectItems rest
                  (if category = "entree".data ∨ category = "main".data
                    then name :: p.1 else p.1,
                   name :: p.2)

/-- The `_dedupe` helper with its `seen` set made explicit. -/
def dedupeAux (seen : List Str) : List Str → List Str
  | [] => []
  | v :: rest =>
      if v ∈ seen then dedupeAux seen rest
      else v :: dedupeAux (v :: seen) rest

/-- `_dedupe`: drop every repetition of a value, keeping first occurrences
in order. -/
def _dedupe (values : List Str) : List Str := dedupeAux [] values

/-- Index of the first occurrence of `x` in a list (length of the list when
absent); used to state first-occurrence order. -/
def firstIdx (x : Str) : List Str → Nat
  | [] => 0
  | y :: rest => if y = x then 0 else firstIdx x rest + 1

/-- `parse_menu_day`: empty `menu_items` → absent; otherwise collect the
retained names; empty `foods` → absent; otherwise parse the `date` field
(a malformed date raises, modelled as `Except.error`) and build the
deduplicated `MenuDay`. -/
def parse_menu_day (day : RawDay) : Except Unit (Option MenuDay) :=
  if day.menu_items = [] then Except.ok none
  else if (collectItems day.menu_items).2 = [] then Except.ok none
  else
    match parseIsoDate day.date with
    | none => Except.error ()
    | some d =>
        Except.ok (some ⟨d, _dedupe (collectItems day.menu_items).1,
          _dedupe (collectItems day.menu_items).2⟩)

/-! ### Calendar serializer (`build_calendar`) -/

/-- Two-digit zero-padded decimal rendering (`%02d` for values ≤ 99). -/
def pad2 (n : Nat) : Str :=
  [Char.ofNat (48 + n / 10 % 10), Char.ofNat (48 + n % 10)]

/-- Four-digit zero-padded decimal rendering (`%04d` for values ≤ 9999). -/
def pad4 (n : Nat) : Str :=
  [Char.ofNat (48 + n / 1000 % 10), Char.ofNat (48 + n / 100 % 10),
   Char.ofNat (48 + n / 10 % 10), Char.ofNat (48 + n % 10)]

/-- `date.isoformat()`: `YYYY-MM-DD`. -/
def Date.iso (d : Date) : Str :=
  pad4 d.year ++ ('-' :: (pad2 d.month ++ ('-' :: pad2 d.day)))

/-- `date.strftime('%Y%m%d')`: `YYYYMMDD`. -/
def Date.ymdCompact (d : Date) : Str :=
  pad4 d.year ++ pad2 d.month ++ pad2 d.day

/-- The event identifier `f"{school.slug}-{day.date.isoformat()}@{district}"`. -/
def mkUid (slug : Str) (d : Date) (district : Str) : Str :=
  slug ++ ('-' :: (Date.iso d ++ ('@' :: district)))

/-- Spec-side summary rule: first entrée name if `entrees` is non-empty,
else the fixed literal `Lunch Menu`. -/
def summarySpec (day : MenuDay) : Str :=
  match day.entrees with
  | [] => "Lunch Menu".data
  | e :: _ => e

/-- Spec-side description rule: the fixed header literal `Full menu:`
followed by a newline-joined list of all foods. -/
def descriptionSpec (day : MenuDay) : Str :=
  "Full menu:".data ++ ('\n' :: List.intercalate ['\n'] day.foods)

/-- The fixed calendar container header lines. -/
def calHeader : List Str :=
  ["BEGIN:VCALENDAR".data, "VERSION:2.0".data, "PRODID:-//a2schools-cal//EN".data,
   "CALSCALE:GREGORIAN".data, "METHOD:PUBLISH".data]

/-- The lines appended for one `MenuDay` by the loop of `build_calendar`. -/
def eventBlock (school : School) (district now : Str) (day : MenuDay) : List Str :=
  let summary : Str :=
    match day.entrees with
    | [] => "Lunch Menu".data
    | e :: _ => e
  let description : Str := "Full menu:\n".data ++ List.intercalate ['\n'] day.foods
  let uid : Str := mkUid school.slug day.date district
  ["BEGIN:VEVENT".data,
   "UID:".data ++ _escape_ics uid,
   "DTSTAMP:".data ++ now,
   "DTSTART;VALUE=DATE:".data ++ day.date.ymdCompact,
   "SUMMARY:".data ++ _escape_ics summary,
   "DESCRIPTION:".data ++ _escape_ics description,
   "END:VEVENT".data]

/-- The line list built by `build_calendar`: header lines, then the event
blocks appended in input order, then the closing line. -/
def buildCalendarLines (school : School) (menu_days : List MenuDay)
    (district now : Str) : List Str :=
  (menu_days.foldl (fun acc day => acc ++ eventBlock school district now day) calHeader)
    ++ ["END:VCALENDAR".data]

/-- `build_calendar`: the serialized document, CRLF-joined with a trailing
CRLF.  `now` is the `DTSTAMP` timestamp string computed once per document. -/
def build_calendar (school : School) (menu_days : List MenuDay)
    (district now : Str) : Str :=
  List.intercalate ['\r', '\n'] (buildCalendarLines school menu_days district now)
    ++ ['\r', '\n']

/-! ### Per-school generation loop (`generate_calendars`) -/

/-- Python `date` comparison `a <= b` (tuple order on (year, month, day)). -/
def dateLe (a b : Date) : Prop :=
  a.year < b.year ∨ (a.year = b.year ∧
    (a.month < b.month ∨ (a.month = b.month ∧ a.day ≤ b.day)))

/-- Python `date` comparison `a < b`. -/
def dateLt (a b : Date) : Prop :=
  a.year < b.year ∨ (a.year = b.year ∧
    (a.month < b.month ∨ (a.month = b.month ∧ a.day < b.day)))

instance (a b : Date) : Decidable (dateLe a b) := by
  unfold dateLe; infer_instance

instance (a b : Date) : Decidable (dateLt a b) := by
  unfold dateLt; infer_instance

/-- `menus[date] = menu_day`: replace the entry of an existing key in place,
otherwise append a new entry (Python dict insertion semantics; keys are
unique by construction). -/
def dictInsert : List (Date × MenuDay) → Date → MenuDay → List (Date × MenuDay)
  | [], k, v => [(k, v)]
  | p :: rest, k, v =>
      if p.1 = k then (k, v) :: rest else p :: dictInsert rest k v

/-- `menus[date]` / `menus.get(date)`. -/
def dictLookup : List (Date × MenuDay) → Date → Option MenuDay
  | [], _ => none
  | p :: rest, k => if p.1 = k then some p.2 else dictLookup rest k

/-- Insert a date into an ascending list of dates. -/
def insertSortedDate (k : Date) : List Date → List Date
  | [] => [k]
  | x :: rest => if dateLe k x then k :: x :: rest else x :: insertSortedDate k rest

/-- `sorted(menus)`: the dict keys in ascending date order. -/
def sortDates (l : List Date) : List Date := l.foldr insertSortedDate []

/-- The day loop of `generate_calendars` over all fetched days: parse each
raw day (a parse error aborts the run), skip absent days, and store each
in-range `MenuDay` in the date-keyed dict (last write wins). -/
def mergeDays (lo hi : Date) : List RawDay → List (Date × MenuDay) →
    Except Unit (List (Date × MenuDay))
  | [], m => Except.ok m
  | day :: rest, m =>
      match parse_menu_day day with
      | Except.error e => Except.error e
      | Except.ok none => mergeDays lo hi rest m
      | Except.ok (some md) =>
          if dateLe lo md.date ∧ dateLe md.date hi then
            mergeDays lo hi rest (dictInsert m md.date md)
          else mergeDays lo hi rest m

/-- The in-range successfully parsed `MenuDay`s of a day list, in processing
order (the sequence of dict writes performed by the loop). -/
def keptDays (lo hi : Date) (days : List RawDay) : List MenuDay :=
  days.filterMap (fun day =>
    match parse_menu_day day with
    | Except.ok (some md) =>
        if dateLe lo md.date ∧ dateLe md.date hi then some md else none
    | _ => none)

/-- The last element of a list of `MenuDay`s carrying the given date. -/
def lastWithDate (k : Date) : List MenuDay → Option MenuDay
  | [] => none
  | md :: rest =>
      match lastWithDate k rest with
      | some x => some x
      | none => if md.date = k then some md else none

/-- One school's pass of `generate_calendars`: fetch every overlapping week
(`fetch` maps a week-start ordinal to the `days` list of its payload),
merge all days into the date-keyed dict, then read the dict back in
ascending key order.  This is the event list handed to `build_calendar`. -/
def processSchool (fetch : Nat → List RawDay) (lo hi : Date) :
    Except Unit (List MenuDay) :=
  match mergeDays lo hi ((weekStarts lo.ord hi.ord).flatMap fetch) [] with
  | Except.error e => Except.error e
  | Except.ok m =>
      Except.ok ((sortDates (m.map (fun p => p.1))).filterMap (dictLookup m))

/-- Concrete week fetcher used to witness C9: the week of 2024-01-08 returns
one day (2024-01-10, Taco); the week of 2024-01-15 returns two days
(2024-01-15, Burger; and another 2024-01-10, Sushi, which overwrites the
first week's entry for that date). -/
def wFetchC9 (w : Nat) : List RawDay :=
  if w = 738893 then
    [RawDay.mk "2024-01-10".data
      [RawItem.mk false (some (RawFood.mk (some "Taco".data))) (some "entree".data)]]
  else if w = 738900 then
    [RawDay.mk "2024-01-15".data
      [RawItem.mk false (some (RawFood.mk (some "Burger".data))) (some "entree".data)],
     RawDay.mk "2024-01-10".data
      [RawItem.mk false (some (RawFood.mk (some "Sushi".data))) (some "entree".data)]]
  else []

-- Sanity checks of the date arithmetic against known values of
-- `datetime.date.toordinal`.
example : dateOrdinal 1 1 1 = 1 := by decide
example : dateOrdinal 1970 1 1 = 719163 := by decide
example : dateOrdinal 2024 1 8 = 738893 := by decide
example : weekday (dateOrdinal 2024 1 8) = 0 := by decide
example : weekday (dateOrdinal 2024 1 10) = 2 := by decide

/-! ### Lemmas about `weekStartsAux` -/

theorem mem_weekStartsAux (m : Nat) :
    ∀ (fuel c fin : Nat), fin + 1 - c ≤ fuel →
      (m ∈ weekStartsAux fuel c fin ↔ ∃ k, m = c + 7 * k ∧ m ≤ fin) := by
  intro fuel
  induction fuel with
  | zero =>
      intro c fin h
      simp only [weekStartsAux, List.not_mem_nil, false_iff]
      rintro ⟨k, rfl, hle⟩
      omega
  | succ fuel ih =>
      intro c fin h
      by_cases hc : c ≤ fin
      · simp only [weekStartsAux, if_pos hc, List.mem_cons]
        rw [ih (c + 7) fin (by omega)]
        constructor
        · rintro (rfl | ⟨k, rfl, hk⟩)
          · exact ⟨0, by omega, hc⟩
          · exact ⟨k + 1, by omega, hk⟩
        · rintro ⟨k, rfl, hk⟩
          cases k with
          | zero => left; omega
          | succ k => right; exact ⟨k, by omega, hk⟩
      · simp only [weekStartsAux, if_neg hc, List.not_mem_nil, false_iff]
        rintro ⟨k, rfl, hle⟩
        omega

theorem head?_weekStartsAux {fuel c fin : Nat} (hfuel : 1 ≤ fuel) (hc : c ≤ fin) :
    (weekStartsAux fuel c fin).head? = some c := by
  cases fuel with
  | zero => omega
  | succ fuel => simp [weekStartsAux, if_pos hc]

theorem chain'_weekStartsAux :
    ∀ (fuel c fin : Nat), List.Chain' (fun a b => b = a + 7) (weekStartsAux fuel c fin) := by
  intro fuel
  induction fuel with
  | zero => intro c fin; simp [weekStartsAux]
  | succ fuel ih =>
      intro c fin
      by_cases hc : c ≤ fin
      · simp only [weekStartsAux, if_pos hc]
        rw [List.chain'_cons']
        refine ⟨?_, ih (c + 7) fin⟩
        intro b hb
        cases fuel with
        | zero => simp [weekStartsAux] at hb
        | succ fuel =>
            by_cases hc7 : c + 7 ≤ fin
            · rw [head?_weekStartsAux (by omega) hc7] at hb
              simpa using hb.symm
            · simp [weekStartsAux, if_neg hc7] at hb
      · simp [weekStartsAux, if_neg hc]

/-- C1, generic part, packaged for reuse. -/
theorem weekStarts_spec (start fin : Nat) (hstart : 1 ≤ start) (hle : start ≤ fin) :
    weekday (mondayOf start) = 0 ∧ mondayOf start ≤ start ∧ start < mondayOf start + 7 ∧
      (weekStarts start fin).head? = some (mondayOf start) ∧
      List.Chain' (fun a b => b = a + 7) (weekStarts start fin) ∧
      (∀ m, m ∈ weekStarts start fin ↔
        1 ≤ m ∧ weekday m = 0 ∧ m ≤ fin ∧ start ≤ m + 6) := by
  have hmon : mondayOf start = start - (start - 1) % 7 := rfl
  have hwd : weekday (mondayOf start) = 0 := by
    unfold weekday mondayOf weekday
    omega
  refine ⟨hwd, ?_, ?_, ?_, ?_, ?_⟩
  · unfold mondayOf weekday; omega
  · unfold mondayOf weekday; omega
  · exact head?_weekStartsAux (by unfold mondayOf weekday; omega)
      (by unfold mondayOf weekday; omega)
  · exact chain'_weekStartsAux _ _ _
  · intro m
    rw [weekStarts, mem_weekStartsAux m _ _ _ (by omega)]
    unfold weekday at hwd ⊢
    constructor
    · rintro ⟨k, rfl, hk⟩
      refine ⟨by omega, by omega, hk, by omega⟩
    · rintro ⟨hm1, hm0, hmf, hms⟩
      refine ⟨(m - mondayOf start) / 7, ?_, hmf⟩
      unfold mondayOf weekday at *
      omega

/-- C1: for `start_date <= end_date` (ordinals, `start ≥ 1`), `_week_starts`
yields exactly the Mondays of the weeks overlapping `[start, end]`: the
first yielded day is the Monday of `start`'s week, successive days step by
7, and a Monday (of an overlapping week) is yielded iff it is `≤ end`;
concretely, for 2024-01-10 .. 2024-01-20 it yields exactly 2024-01-08 and
2024-01-15. -/
theorem claim_C1 :
    (∀ start fin, 1 ≤ start → start ≤ fin →
      weekday (mondayOf start) = 0 ∧ mondayOf start ≤ start ∧
        start < mondayOf start + 7 ∧
        (weekStarts start fin).head? = some (mondayOf start) ∧
        List.Chain' (fun a b => b = a + 7) (weekStarts start fin) ∧
        (∀ m, m ∈ weekStarts start fin ↔
          1 ≤ m ∧ weekday m = 0 ∧ m ≤ fin ∧ start ≤ m + 6)) ∧
    weekStarts (dateOrdinal 2024 1 10) (dateOrdinal 2024 1 20) =
      [dateOrdinal 2024 1 8, dateOrdinal 2024 1 15] := by
  constructor
  · intro start fin h1 h2
    exact weekStarts_spec start fin h1 h2
  · decide

/-- Witness for C1: the generic part applied at the concrete ordinals of the
2024-01-10 .. 2024-01-20 range. -/
theorem claim_C1_witness :
    1 ≤ 738895 ∧ 738895 ≤ 738905 ∧
      (weekday (mondayOf 738895) = 0 ∧ mondayOf 738895 ≤ 738895 ∧
        738895 < mondayOf 738895 + 7 ∧
        (weekStarts 738895 738905).head? = some (mondayOf 738895) ∧
        List.Chain' (fun a b => b = a + 7) (weekStarts 738895 738905) ∧
        (∀ m, m ∈ weekStarts 738895 738905 ↔
          1 ≤ m ∧ weekday m = 0 ∧ m ≤ 738905 ∧ 738895 ≤ m + 6)) :=
  ⟨by decide, by decide, claim_C1.1 738895 738905 (by decide) (by decide)⟩

/-! ### Escaping lemmas (C4, C5) -/

theorem replaceChar_append (t : Char) (r : Str) (a b : Str) :
    replaceChar t r (a ++ b) = replaceChar t r a ++ replaceChar t r b := by
  induction a with
  | nil => simp [replaceChar]
  | cons c rest ih => by_cases h : c = t <;> simp [replaceChar, h, ih]

theorem escape_cons (c : Char) (s : Str) :
    _escape_ics (c :: s) = escICSChar c ++ _escape_ics s := by
  by_cases h1 : c = '\\'
  · subst h1; simp [_escape_ics, replaceChar, replaceChar_append, escICSChar]
  by_cases h2 : c = ';'
  · subst h2; simp [_escape_ics, replaceChar, replaceChar_append, escICSChar]
  by_cases h3 : c = ','
  · subst h3; simp [_escape_ics, replaceChar, replaceChar_append, escICSChar]
  by_cases h4 : c = '\n'
  · subst h4; simp [_escape_ics, replaceChar, replaceChar_append, escICSChar]
  simp [_escape_ics, replaceChar, escICSChar, h1, h2, h3, h4]

theorem escape_flatMap (s : Str) : _escape_ics s = s.flatMap escICSChar := by
  induction s with
  | nil => rfl
  | cons c rest ih => rw [escape_cons, ih]; simp

theorem escICSChar_ne_nil (c : Char) : escICSChar c ≠ [] := by
  unfold escICSChar
  by_cases h1 : c = '\\' <;> by_cases h2 : c = ';' <;> by_cases h3 : c = ',' <;>
    by_cases h4 : c = '\n' <;> simp [h1, h2, h3, h4]

theorem escape_eq_nil_iff (s : Str) : _escape_ics s = [] ↔ s = [] := by
  cases s with
  | nil => simp [_escape_ics, replaceChar]
  | cons c rest =>
      rw [escape_cons]
      simp only [List.append_eq_nil, List.cons_ne_nil, iff_false]
      rintro ⟨hchar, -⟩
      exact escICSChar_ne_nil c hchar

theorem unescape_escape (s : Str) : unescapeICS (_escape_ics s) = s := by
  induction s with
  | nil => rfl
  | cons c t ih =>
      rw [escape_cons]
      by_cases h1 : c = '\\'
      · subst h1; simpa [escICSChar, unescapeICS] using ih
      by_cases h2 : c = ';'
      · subst h2; simpa [escICSChar, unescapeICS] using ih
      by_cases h3 : c = ','
      · subst h3; simpa [escICSChar, unescapeICS] using ih
      by_cases h4 : c = '\n'
      · subst h4; simpa [escICSChar, unescapeICS] using ih
      simp only [escICSChar, if_neg h1, if_neg h2, if_neg h3, if_neg h4,
        List.singleton_append]
      cases he : _escape_ics t with
      | nil =>
          rw [(escape_eq_nil_iff t).mp he]
          simp [unescapeICS]
      | cons d rest =>
          rw [← he]
          have : unescapeICS (c :: d :: rest) = c :: unescapeICS (d :: rest) := by
            simp [unescapeICS, h1]
          rw [he] at ih ⊢
          rw [this, ih]

/-- C4: the text escaping function applies, in this order: backslash →
double backslash, then `;` → `\;`, then `,` → `\,`, then newline → `\n`
(equivalently, per character via `escICSChar`); and `build_calendar`
applies this escaping to each free-text field it emits (identifier,
summary, description). -/
theorem claim_C4 :
    (∀ s, _escape_ics s =
      replaceChar '\n' ['\\', 'n']
        (replaceChar ',' ['\\', ',']
          (replaceChar ';' ['\\', ';']
            (replaceChar '\\' ['\\', '\\'] s)))) ∧
    (∀ s, _escape_ics s = s.flatMap escICSChar) ∧
    (∀ school district now day,
      eventBlock school district now day =
        ["BEGIN:VEVENT".data,
         "UID:".data ++ _escape_ics (mkUid school.slug day.date district),
         "DTSTAMP:".data ++ now,
         "DTSTART;VALUE=DATE:".data ++ day.date.ymdCompact,
         "SUMMARY:".data ++ _escape_ics (summarySpec day),
         "DESCRIPTION:".data ++ _escape_ics (descriptionSpec day),
         "END:VEVENT".data]) := by
  refine ⟨fun s => rfl, escape_flatMap, ?_⟩
  intro school district now day
  obtain ⟨d, es, fs⟩ := day
  cases es <;> rfl

/-- C5: unescaping (the reverse of the escaping rule) recovers every input
string from its escaped form; in particular `_escape_ics` is injective. -/
theorem claim_C5 :
    (∀ s, unescapeICS (_escape_ics s) = s) ∧ Function.Injective _escape_ics :=
  ⟨unescape_escape, Function.LeftInverse.injective unescape_escape⟩

/-! ### Deduplication and normalizer lemmas (C2, C3, C10) -/

theorem mem_dedupeAux (l : List Str) :
    ∀ (seen : List Str) (x : Str), x ∈ dedupeAux seen l ↔ x ∈ l ∧ x ∉ seen := by
  induction l with
  | nil => intro seen x; simp [dedupeAux]
  | cons c t ih =>
      intro seen x
      by_cases hc : c ∈ seen
      · rw [show dedupeAux seen (c :: t) = dedupeAux seen t from by
          simp [dedupeAux, hc]]
        rw [ih seen x, List.mem_cons]
        constructor
        · rintro ⟨hx, hxs⟩; exact ⟨Or.inr hx, hxs⟩
        · rintro ⟨hx | hx, hxs⟩
          · exact absurd (hx ▸ hc) hxs
          · exact ⟨hx, hxs⟩
      · rw [show dedupeAux seen (c :: t) = c :: dedupeAux (c :: seen) t from by
          simp [dedupeAux, hc]]
        rw [List.mem_cons, List.mem_cons, ih (c :: seen) x]
        constructor
        · rintro (rfl | ⟨h1, h2⟩)
          · exact ⟨Or.inl rfl, hc⟩
          · exact ⟨Or.inr h1, fun hs => h2 (List.mem_cons_of_mem _ hs)⟩
        · rintro ⟨rfl | hx, hxs⟩
          · exact Or.inl rfl
          · by_cases hxc : x = c
            · exact Or.inl hxc
            · refine Or.inr ⟨hx, ?_⟩
              rw [List.mem_cons]
              rintro (h | h)
              · exact hxc h
              · exact hxs h

theorem nodup_dedupeAux (l : List Str) :
    ∀ seen : List Str, (dedupeAux seen l).Nodup := by
  induction l with
  | nil => intro seen; simp [dedupeAux]
  | cons c t ih =>
      intro seen
      by_cases hc : c ∈ seen
      · rw [show dedupeAux seen (c :: t) = dedupeAux seen t from by
          simp [dedupeAux, hc]]
        exact ih seen
      · rw [show dedupeAux seen (c :: t) = c :: dedupeAux (c :: seen) t from by
          simp [dedupeAux, hc]]
        refine List.nodup_cons.mpr ⟨?_, ih (c :: seen)⟩
        rw [mem_dedupeAux]
        rintro ⟨-, h⟩
        exact h (List.mem_cons_self c seen)

theorem sublist_dedupeAux (l : List Str) :
    ∀ seen : List Str, (dedupeAux seen l).Sublist l := by
  induction l with
  | nil => intro seen; simp [dedupeAux]
  | cons c t ih =>
      intro seen
      by_cases hc : c ∈ seen
      · rw [show dedupeAux seen (c :: t) = dedupeAux seen t from by
          simp [dedupeAux, hc]]
        exact (ih seen).cons c
      · rw [show dedupeAux seen (c :: t) = c :: dedupeAux (c :: seen) t from by
          simp [dedupeAux, hc]]
        exact (ih (c :: seen)).cons₂ c

theorem firstIdx_dedupeAux (l : List Str) :
    ∀ (seen : List Str) (a b : Str), a ∈ l → a ∉ seen → b ∈ l → b ∉ seen →
      (firstIdx a (dedupeAux seen l) < firstIdx b (dedupeAux seen l) ↔
        firstIdx a l < firstIdx b l) := by
  induction l with
  | nil => intro seen a b ha; simp at ha
  | cons c t ih =>
      intro seen a b ha has hb hbs
      by_cases hc : c ∈ seen
      · have hac : ¬(c = a) := fun h => has (h ▸ hc)
        have hbc : ¬(c = b) := fun h => hbs (h ▸ hc)
        have ha' : a ∈ t := by
          rcases List.mem_cons.mp ha with h | h
          · exact absurd h.symm hac
          · exact h
        have hb' : b ∈ t := by
          rcases List.mem_cons.mp hb with h | h
          · exact absurd h.symm hbc
          · exact h
        rw [show dedupeAux seen (c :: t) = dedupeAux seen t from by
          simp [dedupeAux, hc]]
        rw [ih seen a b ha' has hb' hbs]
        simp only [firstIdx, if_neg hac, if_neg hbc]
        omega
      · rw [show dedupeAux seen (c :: t) = c :: dedupeAux (c :: seen) t from by
          simp [dedupeAux, hc]]
        by_cases hca : c = a
        · by_cases hcb : c = b
          · simp only [firstIdx, if_pos hca, if_pos hcb]
          · simp only [firstIdx, if_pos hca, if_neg hcb]
            omega
        · by_cases hcb : c = b
          · simp only [firstIdx, if_pos hcb, if_neg hca]
            omega
          · have ha' : a ∈ t := by
              rcases List.mem_cons.mp ha with h | h
              · exact absurd h.symm hca
              · exact h
            have hb' : b ∈ t := by
              rcases List.mem_cons.mp hb with h | h
              · exact absurd h.symm hcb
              · exact h
            have has' : a ∉ c :: seen := by
              rw [List.mem_cons]
              rintro (h | h)
              · exact hca h.symm
              · exact has h
            have hbs' : b ∉ c :: seen := by
              rw [List.mem_cons]
              rintro (h | h)
              · exact hcb h.symm
              · exact hbs h
            have := ih (c :: seen) a b ha' has' hb' hbs'
            simp only [firstIdx, if_neg hca, if_neg hcb]
            omega

theorem dedupe_ne_nil (l : List Str) (h : l ≠ []) : _dedupe l ≠ [] := by
  cases l with
  | nil => exact absurd rfl h
  | cons c t => simp [_dedupe, dedupeAux]

theorem collect_fst_subset_snd (items : List RawItem) :
    ∀ x, x ∈ (collectItems items).1 → x ∈ (collectItems items).2 := by
  induction items with
  | nil => intro x hx; simp [collectItems] at hx
  | cons item rest ih =>
      obtain ⟨hdr, fd, cat⟩ := item
      intro x hx
      cases hdr with
      | true =>
          simp only [collectItems, if_pos rfl] at hx ⊢
          exact ih x hx
      | false =>
          cases fd with
          | none =>
              simp only [collectItems, Bool.false_eq_true, if_neg] at hx ⊢
              exact ih x hx
          | some food =>
              obtain ⟨nm⟩ := food
              cases nm with
              | none =>
                  simp only [collectItems, Bool.false_eq_true, if_neg] at hx ⊢
                  exact ih x hx
              | some name =>
                  by_cases hn : name = []
                  · simp only [collectItems, Bool.false_eq_true, if_neg, if_pos hn] at hx ⊢
                    exact ih x hx
                  · simp only [collectItems, Bool.false_eq_true, if_neg, if_neg hn] at hx ⊢
                    by_cases hcat : strLower (cat.getD []) = "entree".data ∨
                        strLower (cat.getD []) = "main".data
                    · rw [if_pos hcat] at hx
                      rcases List.mem_cons.mp hx with rfl | hx'
                      · exact List.mem_cons_self _ _
                      · exact List.mem_cons_of_mem _ (ih x hx')
                    · rw [if_neg hcat] at hx
                      exact List.mem_cons_of_mem _ (ih x hx)

theorem parse_ok_some (day : RawDay) (md : MenuDay)
    (h : parse_menu_day day = Except.ok (some md)) :
    (collectItems day.menu_items).2 ≠ [] ∧
      parseIsoDate day.date = some md.date ∧
      md.entrees = _dedupe (collectItems day.menu_items).1 ∧
      md.foods = _dedupe (collectItems day.menu_items).2 := by
  unfold parse_menu_day at h
  by_cases h1 : day.menu_items = []
  · rw [if_pos h1] at h; simp at h
  rw [if_neg h1] at h
  by_cases h2 : (collectItems day.menu_items).2 = []
  · rw [if_pos h2] at h; simp at h
  rw [if_neg h2] at h
  cases h3 : parseIsoDate day.date with
  | none => rw [h3] at h; simp at h
  | some d =>
      rw [h3] at h
      simp only [Except.ok.injEq, Option.some.injEq] at h
      subst h
      exact ⟨h2, rfl, rfl, rfl⟩

/-- C2: for a raw day whose `date` field is well-formed, `parse_menu_day`
returns absent (`none`) iff the retained foods list (empty or all items
filtered out) is empty; otherwise it returns a `MenuDay`. -/
theorem claim_C2 (day : RawDay) (dv : Date) (h : parseIsoDate day.date = some dv) :
    (parse_menu_day day = Except.ok none ↔ (collectItems day.menu_items).2 = []) ∧
    ((collectItems day.menu_items).2 ≠ [] →
      parse_menu_day day =
        Except.ok (some ⟨dv, _dedupe (collectItems day.menu_items).1,
          _dedupe (collectItems day.menu_items).2⟩)) := by
  constructor
  · constructor
    · intro hok
      by_contra h2
      have h1 : day.menu_items ≠ [] := fun he => h2 (by rw [he]; rfl)
      unfold parse_menu_day at hok
      rw [if_neg h1, if_neg h2, h] at hok
      simp at hok
    · intro h2
      by_cases h1 : day.menu_items = []
      · unfold parse_menu_day
        rw [if_pos h1]
      · unfold parse_menu_day
        rw [if_neg h1, if_pos h2]
  · intro h2
    have h1 : day.menu_items ≠ [] := fun he => h2 (by rw [he]; rfl)
    unfold parse_menu_day
    rw [if_neg h1, if_neg h2, h]

/-- Witness for C2 at a concrete raw day (well-formed date, one retained
item). -/
theorem claim_C2_witness :
    parseIsoDate (RawDay.mk "2024-01-10".data
        [RawItem.mk false (some (RawFood.mk (some "Pizza".data)))
          (some "Entree".data)]).date = some (Date.mk 2024 1 10) ∧
    ((parse_menu_day (RawDay.mk "2024-01-10".data
        [RawItem.mk false (some (RawFood.mk (some "Pizza".data)))
          (some "Entree".data)]) = Except.ok none ↔
      (collectItems [RawItem.mk false (some (RawFood.mk (some "Pizza".data)))
          (some "Entree".data)]).2 = []) ∧
     ((collectItems [RawItem.mk false (some (RawFood.mk (some "Pizza".data)))
          (some "Entree".data)]).2 ≠ [] →
       parse_menu_day (RawDay.mk "2024-01-10".data
          [RawItem.mk false (some (RawFood.mk (some "Pizza".data)))
            (some "Entree".data)]) =
         Except.ok (some ⟨Date.mk 2024 1 10,
           _dedupe (collectItems [RawItem.mk false
              (some (RawFood.mk (some "Pizza".data))) (some "Entree".data)]).1,
           _dedupe (collectItems [RawItem.mk false
              (some (RawFood.mk (some "Pizza".data))) (some "Entree".data)]).2⟩))) :=
  ⟨rfl, claim_C2 _ _ rfl⟩

/-- C3: every `MenuDay` returned by `parse_menu_day` has non-empty `foods`;
`foods` contains each distinct retained name exactly once (no duplicates,
same members as the retained list, a sublist of it, ordered by first
occurrence); `entrees` is likewise deduplicated in first-occurrence order;
and every entrée also occurs in `foods`. -/
theorem claim_C3 (day : RawDay) (md : MenuDay)
    (h : parse_menu_day day = Except.ok (some md)) :
    md.foods ≠ [] ∧
    md.foods.Nodup ∧
    (∀ x, x ∈ md.foods ↔ x ∈ (collectItems day.menu_items).2) ∧
    md.foods.Sublist (collectItems day.menu_items).2 ∧
    (∀ a b, a ∈ md.foods → b ∈ md.foods →
      (firstIdx a md.foods < firstIdx b md.foods ↔
        firstIdx a (collectItems day.menu_items).2 <
          firstIdx b (collectItems day.menu_items).2)) ∧
    md.entrees.Nodup ∧
    (∀ x, x ∈ md.entrees ↔ x ∈ (collectItems day.menu_items).1) ∧
    (∀ a b, a ∈ md.entrees → b ∈ md.entrees →
      (firstIdx a md.entrees < firstIdx b md.entrees ↔
        firstIdx a (collectItems day.menu_items).1 <
          firstIdx b (collectItems day.menu_items).1)) ∧
    (∀ x, x ∈ md.entrees → x ∈ md.foods) := by
  obtain ⟨h2, hdate, hent, hfoods⟩ := parse_ok_some day md h
  rw [hent, hfoods]
  refine ⟨dedupe_ne_nil _ h2, nodup_dedupeAux _ _, ?_, sublist_dedupeAux _ _,
    ?_, nodup_dedupeAux _ _, ?_, ?_, ?_⟩
  · intro x
    rw [_dedupe, mem_dedupeAux]
    simp
  · intro a b ha hb
    rw [_dedupe, mem_dedupeAux] at ha hb
    exact firstIdx_dedupeAux _ [] a b ha.1 (by simp) hb.1 (by simp)
  · intro x
    rw [_dedupe, mem_dedupeAux]
    simp
  · intro a b ha hb
    rw [_dedupe, mem_dedupeAux] at ha hb
    exact firstIdx_dedupeAux _ [] a b ha.1 (by simp) hb.1 (by simp)
  · intro x hx
    rw [_dedupe, mem_dedupeAux] at hx ⊢
    exact ⟨collect_fst_subset_snd _ x hx.1, by simp⟩

/-- Witness for C3 at a raw day with a duplicate food name, a station
header, an uncategorised item and a `MAIN`-categorised duplicate; the
evaluated `foods` are `[Pizza, Apple]`, the `entrees` `[Pizza]`. -/
theorem claim_C3_witness :
    parse_menu_day (RawDay.mk "2024-01-10".data
        [RawItem.mk false (some (RawFood.mk (some "Pizza".data))) (some "Entree".data),
         RawItem.mk true none none,
         RawItem.mk false (some (RawFood.mk (some "Apple".data))) none,
         RawItem.mk false (some (RawFood.mk (some "Pizza".data))) (some "MAIN".data)]) =
      Except.ok (some (MenuDay.mk (Date.mk 2024 1 10)
        ["Pizza".data] ["Pizza".data, "Apple".data])) ∧
    (["Pizza".data, "Apple".data] ≠ ([] : List Str) ∧
     List.Nodup ["Pizza".data, "Apple".data] ∧
     (∀ x, x ∈ ["Pizza".data, "Apple".data] ↔
        x ∈ ["Pizza".data, "Apple".data, "Pizza".data]) ∧
     List.Sublist ["Pizza".data, "Apple".data]
        ["Pizza".data, "Apple".data, "Pizza".data] ∧
     (∀ a b, a ∈ ["Pizza".data, "Apple".data] → b ∈ ["Pizza".data, "Apple".data] →
       (firstIdx a ["Pizza".data, "Apple".data] <
          firstIdx b ["Pizza".data, "Apple".data] ↔
        firstIdx a ["Pizza".data, "Apple".data, "Pizza".data] <
          firstIdx b ["Pizza".data, "Apple".data, "Pizza".data])) ∧
     List.Nodup ["Pizza".data] ∧
     (∀ x, x ∈ ["Pizza".data] ↔ x ∈ ["Pizza".data, "Pizza".data]) ∧
     (∀ a b, a ∈ ["Pizza".data] → b ∈ ["Pizza".data] →
       (firstIdx a ["Pizza".data] < firstIdx b ["Pizza".data] ↔
        firstIdx a ["Pizza".data, "Pizza".data] <
          firstIdx b ["Pizza".data, "Pizza".data])) ∧
     (∀ x, x ∈ ["Pizza".data] → x ∈ ["Pizza".data, "Apple".data])) :=
  ⟨rfl, claim_C3
    (RawDay.mk "2024-01-10".data
      [RawItem.mk false (some (RawFood.mk (some "Pizza".data))) (some "Entree".data),
       RawItem.mk true none none,
       RawItem.mk false (some (RawFood.mk (some "Apple".data))) none,
       RawItem.mk false (some (RawFood.mk (some "Pizza".data))) (some "MAIN".data)])
    (MenuDay.mk (Date.mk 2024 1 10) ["Pizza".data] ["Pizza".data, "Apple".data])
    rfl⟩

/-- Counterexample to C10 as stated: a raw day with a malformed `date` field
and an empty `menu_items` list is silently dropped (`Except.ok none`), not
propagated as a parse error — the `date` field is only parsed after the
empty-foods checks. -/
theorem claim_C10_counterexample :
    parseIsoDate (RawDay.mk "bogus".data []).date = none ∧
      parse_menu_day (RawDay.mk "bogus".data []) = Except.ok none :=
  ⟨rfl, rfl⟩

/-- C10 (amended): `parse_menu_day` fails with a propagated parse error iff
the `date` field is malformed AND the retained foods list is non-empty
(the date is parsed only after the empty-`menu_items` and empty-`foods`
checks). -/
theorem claim_C10_amended (day : RawDay) :
    parse_menu_day day = Except.error () ↔
      (parseIsoDate day.date = none ∧ (collectItems day.menu_items).2 ≠ []) := by
  unfold parse_menu_day
  by_cases h1 : day.menu_items = []
  · rw [if_pos h1, h1]
    simp [collectItems]
  · rw [if_neg h1]
    by_cases h2 : (collectItems day.menu_items).2 = []
    · rw [if_pos h2]
      simp [h2]
    · rw [if_neg h2]
      cases h3 : parseIsoDate day.date <;> simp [h2]

/-! ### Serializer lemmas (C7, C8) -/

theorem foldl_eventBlocks (school : School) (district now : Str) :
    ∀ (days : List MenuDay) (acc : List Str),
      days.foldl (fun acc day => acc ++ eventBlock school district now day) acc =
        acc ++ days.flatMap (eventBlock school district now) := by
  intro days
  induction days with
  | nil => intro acc; simp
  | cons d rest ih => intro acc; simp [List.foldl_cons, ih]

theorem count_begin_eventBlock (school : School) (district now : Str) (day : MenuDay) :
    List.count "BEGIN:VEVENT".data (eventBlock school district now day) = 1 := by
  unfold eventBlock
  simp [List.count_cons]

theorem count_begin_flatMap (school : School) (district now : Str) :
    ∀ days : List MenuDay,
      List.count "BEGIN:VEVENT".data (days.flatMap (eventBlock school district now)) =
        days.length := by
  intro days
  induction days with
  | nil => simp
  | cons d rest ih =>
      rw [List.flatMap_cons, List.count_append, count_begin_eventBlock, ih]
      simp [Nat.add_comm]

/-- C7: `build_calendar`'s line list is the fixed header, then exactly one
event block per input day in input order, then the closing line; the
number of `BEGIN:VEVENT` lines equals the number of input days; and the
empty input still yields the well-formed header+closing document with
zero events. -/
theorem claim_C7 :
    ∀ (school : School) (menu_days : List MenuDay) (district now : Str),
      buildCalendarLines school menu_days district now =
        calHeader ++ menu_days.flatMap (eventBlock school district now) ++
          ["END:VCALENDAR".data] ∧
      List.count "BEGIN:VEVENT".data (buildCalendarLines school menu_days district now) =
        menu_days.length ∧
      buildCalendarLines school [] district now =
        calHeader ++ ["END:VCALENDAR".data] ∧
      build_calendar school [] district now =
        List.intercalate ['\r', '\n'] (calHeader ++ ["END:VCALENDAR".data]) ++
          ['\r', '\n'] := by
  intro school menu_days district now
  have hmain : buildCalendarLines school menu_days district now =
      calHeader ++ menu_days.flatMap (eventBlock school district now) ++
        ["END:VCALENDAR".data] := by
    unfold buildCalendarLines
    rw [foldl_eventBlocks]
  refine ⟨hmain, ?_, by simp [buildCalendarLines], by simp [build_calendar, buildCalendarLines]⟩
  rw [hmain, List.count_append, List.count_append, count_begin_flatMap]
  have hh : List.count "BEGIN:VEVENT".data calHeader = 0 := by decide
  have he : List.count "BEGIN:VEVENT".data ["END:VCALENDAR".data] = 0 := by decide
  rw [hh, he]
  omega

/-- C8: in every emitted event block the summary line is the first entrée
name when `entrees` is non-empty and the fixed literal `Lunch Menu`
otherwise, and the description line is the fixed header `Full menu:`
followed by the newline-joined `foods`, both escaped. -/
theorem claim_C8 :
    ∀ (school : School) (district now : Str) (day : MenuDay),
      (eventBlock school district now day)[4]? =
        some ("SUMMARY:".data ++ _escape_ics (summarySpec day)) ∧
      (eventBlock school district now day)[5]? =
        some ("DESCRIPTION:".data ++ _escape_ics (descriptionSpec day)) := by
  intro school district now day
  obtain ⟨d, es, fs⟩ := day
  cases es <;> exact ⟨rfl, rfl⟩

/-! ### Identifier lemmas (C6) -/

theorem ofNat_digit_inj (a b : Nat) (ha : a ≤ 9) (hb : b ≤ 9)
    (h : Char.ofNat (48 + a) = Char.ofNat (48 + b)) : a = b := by
  interval_cases a <;> interval_cases b <;> revert h <;> decide

theorem at_ne_digit (a : Nat) (ha : a ≤ 9) : '@' ≠ Char.ofNat (48 + a) := by
  interval_cases a <;> decide

theorem pad4_inj (y1 y2 : Nat) (h1 : y1 ≤ 9999) (h2 : y2 ≤ 9999)
    (h : pad4 y1 = pad4 y2) : y1 = y2 := by
  unfold pad4 at h
  simp only [List.cons.injEq, and_true] at h
  obtain ⟨e1, e2, e3, e4⟩ := h
  have q1 := ofNat_digit_inj _ _ (by omega) (by omega) e1
  have q2 := ofNat_digit_inj _ _ (by omega) (by omega) e2
  have q3 := ofNat_digit_inj _ _ (by omega) (by omega) e3
  have q4 := ofNat_digit_inj _ _ (by omega) (by omega) e4
  omega

theorem pad2_inj (m1 m2 : Nat) (h1 : m1 ≤ 99) (h2 : m2 ≤ 99)
    (h : pad2 m1 = pad2 m2) : m1 = m2 := by
  unfold pad2 at h
  simp only [List.cons.injEq, and_true] at h
  obtain ⟨e1, e2⟩ := h
  have q1 := ofNat_digit_inj _ _ (by omega) (by omega) e1
  have q2 := ofNat_digit_inj _ _ (by omega) (by omega) e2
  omega

theorem daysInMonth_le (y m : Nat) : daysInMonth y m ≤ 31 := by
  unfold daysInMonth
  split
  · split <;> omega
  · split <;> omega

theorem iso_inj (d1 d2 : Date) (hv1 : d1.valid) (hv2 : d2.valid)
    (h : Date.iso d1 = Date.iso d2) : d1 = d2 := by
  obtain ⟨y1, m1, dd1⟩ := d1
  obtain ⟨y2, m2, dd2⟩ := d2
  obtain ⟨-, hy1, -, hm1, -, hd1⟩ := hv1
  obtain ⟨-, hy2, -, hm2, -, hd2⟩ := hv2
  have hy1' : y1 ≤ 9999 := hy1
  have hy2' : y2 ≤ 9999 := hy2
  have hm1' : m1 ≤ 12 := hm1
  have hm2' : m2 ≤ 12 := hm2
  have hd1' : dd1 ≤ daysInMonth y1 m1 := hd1
  have hd2' : dd2 ≤ daysInMonth y2 m2 := hd2
  have hdm1 := daysInMonth_le y1 m1
  have hdm2 := daysInMonth_le y2 m2
  simp only [Date.iso] at h
  obtain ⟨hy, hrest⟩ := List.append_inj h rfl
  rw [List.cons.injEq] at hrest
  obtain ⟨-, hrest⟩ := hrest
  obtain ⟨hm, hrest2⟩ := List.append_inj hrest rfl
  rw [List.cons.injEq] at hrest2
  obtain ⟨-, hd⟩ := hrest2
  have := pad4_inj _ _ hy1' hy2' hy
  have := pad2_inj _ _ (by omega) (by omega) hm
  have := pad2_inj _ _ (by omega) (by omega) hd
  simp_all

theorem at_not_mem_pad4 (n : Nat) : '@' ∉ pad4 n := by
  unfold pad4
  intro h
  rcases List.mem_cons.mp h with h | h
  · exact at_ne_digit _ (by omega) h
  rcases List.mem_cons.mp h with h | h
  · exact at_ne_digit _ (by omega) h
  rcases List.mem_cons.mp h with h | h
  · exact at_ne_digit _ (by omega) h
  rcases List.mem_cons.mp h with h | h
  · exact at_ne_digit _ (by omega) h
  · simp at h

theorem at_not_mem_pad2 (n : Nat) : '@' ∉ pad2 n := by
  unfold pad2
  intro h
  rcases List.mem_cons.mp h with h | h
  · exact at_ne_digit _ (by omega) h
  rcases List.mem_cons.mp h with h | h
  · exact at_ne_digit _ (by omega) h
  · simp at h

theorem at_not_mem_iso (d : Date) : '@' ∉ Date.iso d := by
  intro h
  unfold Date.iso at h
  rcases List.mem_append.mp h with h | h
  · exact at_not_mem_pad4 _ h
  rcases List.mem_cons.mp h with h | h
  · exact absurd h (by decide)
  rcases List.mem_append.mp h with h | h
  · exact at_not_mem_pad2 _ h
  rcases List.mem_cons.mp h with h | h
  · exact absurd h (by decide)
  · exact at_not_mem_pad2 _ h

theorem split_at_sep {sep : Char} :
    ∀ (a₁ : Str) {b₁ a₂ b₂ : Str}, a₁ ++ sep :: b₁ = a₂ ++ sep :: b₂ →
      sep ∉ a₁ → sep ∉ a₂ → a₁ = a₂ ∧ b₁ = b₂ := by
  intro a₁
  induction a₁ with
  | nil =>
      intro b₁ a₂ b₂ h h1 h2
      cases a₂ with
      | nil => simpa using h
      | cons c t =>
          rw [List.nil_append, List.cons_append, List.cons.injEq] at h
          exfalso
          apply h2
          rw [h.1]
          exact List.mem_cons_self c t
  | cons c t ih =>
      intro b₁ a₂ b₂ h h1 h2
      cases a₂ with
      | nil =>
          rw [List.nil_append, List.cons_append, List.cons.injEq] at h
          exfalso
          apply h1
          rw [← h.1]
          exact List.mem_cons_self c t
      | cons c2 t2 =>
          rw [List.cons_append, List.cons_append, List.cons.injEq] at h
          obtain ⟨rfl, h⟩ := h
          have h1' : sep ∉ t := fun hs => h1 (List.mem_cons_of_mem _ hs)
          have h2' : sep ∉ t2 := fun hs => h2 (List.mem_cons_of_mem _ hs)
          obtain ⟨ha, hb⟩ := ih h h1' h2'
          exact ⟨by rw [ha], hb⟩

theorem split_at_last_sep {sep : Char} (a₁ b₁ a₂ b₂ : Str)
    (h : a₁ ++ sep :: b₁ = a₂ ++ sep :: b₂) (h1 : sep ∉ b₁) (h2 : sep ∉ b₂) :
    a₁ = a₂ ∧ b₁ = b₂ := by
  have hr := congrArg List.reverse h
  simp only [List.reverse_append, List.reverse_cons, List.append_assoc,
    List.singleton_append] at hr
  have h1r : sep ∉ b₁.reverse := by simpa using h1
  have h2r : sep ∉ b₂.reverse := by simpa using h2
  obtain ⟨hb, ha⟩ := split_at_sep _ hr h1r h2r
  constructor
  · have := congrArg List.reverse ha
    simpa using this
  · have := congrArg List.reverse hb
    simpa using this

theorem mkUid_inj (s1 s2 t1 t2 : Str) (d1 d2 : Date)
    (hv1 : d1.valid) (hv2 : d2.valid) (h1 : '@' ∉ t1) (h2 : '@' ∉ t2)
    (h : mkUid s1 d1 t1 = mkUid s2 d2 t2) : s1 = s2 ∧ d1 = d2 ∧ t1 = t2 := by
  unfold mkUid at h
  have h' : (s1 ++ '-' :: Date.iso d1) ++ '@' :: t1 =
      (s2 ++ '-' :: Date.iso d2) ++ '@' :: t2 := by
    simpa [List.append_assoc] using h
  obtain ⟨hpre, hsuf⟩ := split_at_last_sep _ _ _ _ h' h1 h2
  obtain ⟨hs, hrest⟩ := List.append_inj' hpre rfl
  rw [List.cons.injEq] at hrest
  obtain ⟨-, hiso⟩ := hrest
  exact ⟨hs, iso_inj _ _ hv1 hv2 hiso, hsuf⟩

/-- Counterexample to C6 as stated: two distinct (slug, date, district)
triples whose derived identifiers are byte-identical — the separators
`-` and `@` can occur inside slugs and districts, so the format is
ambiguous without further constraints. -/
theorem claim_C6_counterexample :
    mkUid "x".data (Date.mk 2024 1 8) "d@y-2024-01-09@z".data =
      mkUid "x-2024-01-08@d@y".data (Date.mk 2024 1 9) "z".data ∧
    ¬("x".data = "x-2024-01-08@d@y".data ∧ Date.mk 2024 1 8 = Date.mk 2024 1 9 ∧
      "d@y-2024-01-09@z".data = "z".data) := by
  constructor
  · decide
  · decide

/-- C6 (amended): the identifier is a deterministic pure function of
(slug, date, district), and — provided the district strings contain no
`@` (the dates are valid `datetime.date` values) — distinct triples yield
distinct identifiers. -/
theorem claim_C6_amended :
    (∀ slug d district, mkUid slug d district = mkUid slug d district) ∧
    (∀ s1 d1 t1 s2 d2 t2, Date.valid d1 → Date.valid d2 →
      '@' ∉ t1 → '@' ∉ t2 →
      mkUid s1 d1 t1 = mkUid s2 d2 t2 → s1 = s2 ∧ d1 = d2 ∧ t1 = t2) :=
  ⟨fun _ _ _ => rfl,
   fun s1 d1 t1 s2 d2 t2 hv1 hv2 h1 h2 h => mkUid_inj s1 s2 t1 t2 d1 d2 hv1 hv2 h1 h2 h⟩

/-- Witness for C6 (amended) at a concrete triple. -/
theorem claim_C6_witness :
    Date.valid (Date.mk 2024 1 10) ∧ '@' ∉ "a2schools".data ∧
      ("slauson".data = "slauson".data ∧ Date.mk 2024 1 10 = Date.mk 2024 1 10 ∧
        "a2schools".data = "a2schools".data) :=
  ⟨by decide, by decide,
   claim_C6_amended.2 "slauson".data (Date.mk 2024 1 10) "a2schools".data
     "slauson".data (Date.mk 2024 1 10) "a2schools".data
     (by decide) (by decide) (by decide) (by decide) rfl⟩

/-! ### Date ordering and dict lemmas (C9) -/

theorem dateLe_total (a b : Date) : dateLe a b ∨ dateLe b a := by
  obtain ⟨y1, m1, d1⟩ := a
  obtain ⟨y2, m2, d2⟩ := b
  unfold dateLe
  simp only
  omega

theorem dateLe_trans {a b c : Date} (h1 : dateLe a b) (h2 : dateLe b c) :
    dateLe a c := by
  obtain ⟨y1, m1, d1⟩ := a
  obtain ⟨y2, m2, d2⟩ := b
  obtain ⟨y3, m3, d3⟩ := c
  unfold dateLe at *
  simp only at *
  omega

theorem dateLt_of_le_ne {a b : Date} (h1 : dateLe a b) (h2 : a ≠ b) :
    dateLt a b := by
  obtain ⟨y1, m1, d1⟩ := a
  obtain ⟨y2, m2, d2⟩ := b
  unfold dateLe at h1
  unfold dateLt
  simp only [Ne, Date.mk.injEq, not_and] at h2
  simp only at *
  by_cases hy : y1 = y2
  · by_cases hm : m1 = m2
    · have := h2 hy hm
      omega
    · omega
  · omega

theorem lookup_insert_self (m : List (Date × MenuDay)) (k : Date) (v : MenuDay) :
    dictLookup (dictInsert m k v) k = some v := by
  induction m with
  | nil => simp [dictInsert, dictLookup]
  | cons p rest ih =>
      by_cases hp : p.1 = k
      · simp [dictInsert, hp, dictLookup]
      · simp [dictInsert, hp, dictLookup, ih]

theorem lookup_insert_ne (m : List (Date × MenuDay)) (k : Date) (v : MenuDay)
    (q : Date) (hq : q ≠ k) : dictLookup (dictInsert m k v) q = dictLookup m q := by
  have hkq : ¬(k = q) := fun h => hq h.symm
  induction m with
  | nil => simp [dictInsert, dictLookup, hkq]
  | cons p rest ih =>
      by_cases hp : p.1 = k
      · have hpq : ¬(p.1 = q) := by rw [hp]; exact hkq
        simp only [dictInsert, if_pos hp, dictLookup, if_neg hkq, if_neg hpq]
      · by_cases hpq : p.1 = q
        · simp only [dictInsert, if_neg hp, dictLookup, if_pos hpq]
        · simp only [dictInsert, if_neg hp, dictLookup, if_neg hpq]
          exact ih

theorem mem_keys_insert (m : List (Date × MenuDay)) (k : Date) (v : MenuDay)
    (q : Date) :
    q ∈ (dictInsert m k v).map Prod.fst ↔ q ∈ m.map Prod.fst ∨ q = k := by
  induction m with
  | nil => simp [dictInsert]
  | cons p rest ih =>
      by_cases hp : p.1 = k
      · simp only [dictInsert, if_pos hp, List.map_cons, List.mem_cons, ih]
        constructor
        · rintro (rfl | h)
          · exact Or.inr rfl
          · exact Or.inl (Or.inr h)
        · rintro ((h | h) | h)
          · exact Or.inl (h.trans hp)
          · exact Or.inr h
          · exact Or.inl h
      · simp only [dictInsert, if_neg hp, List.map_cons, List.mem_cons, ih]
        tauto

theorem nodupKeys_insert (m : List (Date × MenuDay)) (k : Date) (v : MenuDay)
    (h : (m.map Prod.fst).Nodup) : ((dictInsert m k v).map Prod.fst).Nodup := by
  induction m with
  | nil => simp [dictInsert]
  | cons p rest ih =>
      rw [List.map_cons, List.nodup_cons] at h
      by_cases hp : p.1 = k
      · simp only [dictInsert, if_pos hp, List.map_cons]
        rw [List.nodup_cons]
        exact ⟨fun hh => h.1 (hp ▸ hh), h.2⟩
      · simp only [dictInsert, if_neg hp, List.map_cons]
        rw [List.nodup_cons]
        refine ⟨?_, ih h.2⟩
        rw [mem_keys_insert]
        rintro (hh | hh)
        · exact h.1 hh
        · exact hp hh

theorem entryInv_insert (m : List (Date × MenuDay)) (md : MenuDay)
    (h : ∀ p ∈ m, p.1 = p.2.date) :
    ∀ p ∈ dictInsert m md.date md, p.1 = p.2.date := by
  induction m with
  | nil =>
      intro p hp
      simp only [dictInsert, List.mem_singleton] at hp
      subst hp
      rfl
  | cons q rest ih =>
      intro p hp
      by_cases hq : q.1 = md.date
      · simp only [dictInsert, if_pos hq, List.mem_cons] at hp
        rcases hp with rfl | hp
        · rfl
        · exact h p (List.mem_cons_of_mem _ hp)
      · simp only [dictInsert, if_neg hq, List.mem_cons] at hp
        rcases hp with rfl | hp
        · exact h p (List.mem_cons_self _ _)
        · exact ih (fun r hr => h r (List.mem_cons_of_mem _ hr)) p hp

theorem keptDays_cons_error (lo hi : Date) (day : RawDay) (rest : List RawDay)
    (e : Unit) (hp : parse_menu_day day = Except.error e) :
    keptDays lo hi (day :: rest) = keptDays lo hi rest := by
  simp [keptDays, List.filterMap_cons, hp]

theorem keptDays_cons_none (lo hi : Date) (day : RawDay) (rest : List RawDay)
    (hp : parse_menu_day day = Except.ok none) :
    keptDays lo hi (day :: rest) = keptDays lo hi rest := by
  simp [keptDays, List.filterMap_cons, hp]

theorem keptDays_cons_some_in (lo hi : Date) (day : RawDay) (rest : List RawDay)
    (md : MenuDay) (hp : parse_menu_day day = Except.ok (some md))
    (hin : dateLe lo md.date ∧ dateLe md.date hi) :
    keptDays lo hi (day :: rest) = md :: keptDays lo hi rest := by
  simp [keptDays, List.filterMap_cons, hp, hin]

theorem keptDays_cons_some_out (lo hi : Date) (day : RawDay) (rest : List RawDay)
    (md : MenuDay) (hp : parse_menu_day day = Except.ok (some md))
    (hin : ¬(dateLe lo md.date ∧ dateLe md.date hi)) :
    keptDays lo hi (day :: rest) = keptDays lo hi rest := by
  simp [keptDays, List.filterMap_cons, hp, hin]

theorem mergeDays_ok (lo hi : Date) :
    ∀ (days : List RawDay) (m0 m : List (Date × MenuDay)),
      mergeDays lo hi days m0 = Except.ok m →
      m = (keptDays lo hi days).foldl (fun acc md => dictInsert acc md.date md) m0 := by
  intro days
  induction days with
  | nil =>
      intro m0 m h
      simp only [mergeDays, Except.ok.injEq] at h
      simp [keptDays, h]
  | cons day rest ih =>
      intro m0 m h
      cases hp : parse_menu_day day with
      | error e =>
          rw [show mergeDays lo hi (day :: rest) m0 = Except.error e from by
            simp [mergeDays, hp]] at h
          simp at h
      | ok o =>
          cases o with
          | none =>
              rw [show mergeDays lo hi (day :: rest) m0 = mergeDays lo hi rest m0 from by
                simp [mergeDays, hp]] at h
              rw [keptDays_cons_none lo hi day rest hp]
              exact ih m0 m h
          | some md =>
              by_cases hin : dateLe lo md.date ∧ dateLe md.date hi
              · rw [show mergeDays lo hi (day :: rest) m0 =
                    mergeDays lo hi rest (dictInsert m0 md.date md) from by
                  simp [mergeDays, hp, hin]] at h
                rw [keptDays_cons_some_in lo hi day rest md hp hin, List.foldl_cons]
                exact ih _ m h
              · rw [show mergeDays lo hi (day :: rest) m0 = mergeDays lo hi rest m0 from by
                  simp [mergeDays, hp, hin]] at h
                rw [keptDays_cons_some_out lo hi day rest md hp hin]
                exact ih m0 m h

theorem lookup_foldl (L : List MenuDay) :
    ∀ (m0 : List (Date × MenuDay)) (k : Date),
      dictLookup (L.foldl (fun acc md => dictInsert acc md.date md) m0) k =
        match lastWithDate k L with
        | some x => some x
        | none => dictLookup m0 k := by
  induction L with
  | nil => intro m0 k; simp [lastWithDate]
  | cons md rest ih =>
      intro m0 k
      rw [List.foldl_cons, ih]
      cases hl : lastWithDate k rest with
      | some x => simp [lastWithDate, hl]
      | none =>
          simp only [lastWithDate, hl]
          by_cases hk : md.date = k
          · rw [if_pos hk, ← hk, lookup_insert_self]
          · rw [if_neg hk, lookup_insert_ne _ _ _ _ (fun h => hk h.symm)]

theorem foldl_nodupKeys (L : List MenuDay) :
    ∀ m0, (m0.map Prod.fst).Nodup →
      ((L.foldl (fun acc md => dictInsert acc md.date md) m0).map Prod.fst).Nodup := by
  induction L with
  | nil => intro m0 h; simpa using h
  | cons md rest ih =>
      intro m0 h
      rw [List.foldl_cons]
      exact ih _ (nodupKeys_insert m0 md.date md h)

theorem foldl_entryInv (L : List MenuDay) :
    ∀ m0, (∀ p ∈ m0, p.1 = p.2.date) →
      ∀ p ∈ L.foldl (fun acc md => dictInsert acc md.date md) m0, p.1 = p.2.date := by
  induction L with
  | nil => intro m0 h; simpa using h
  | cons md rest ih =>
      intro m0 h
      rw [List.foldl_cons]
      exact ih _ (entryInv_insert m0 md h)

theorem mem_of_lookup_eq_some (m : List (Date × MenuDay)) (k : Date) (v : MenuDay)
    (h : dictLookup m k = some v) : (k, v) ∈ m := by
  induction m with
  | nil => simp [dictLookup] at h
  | cons p rest ih =>
      by_cases hp : p.1 = k
      · rw [show dictLookup (p :: rest) k = some p.2 from by simp [dictLookup, hp]] at h
        rw [Option.some.injEq] at h
        subst h
        rw [← hp]
        exact List.mem_cons_self p rest
      · rw [show dictLookup (p :: rest) k = dictLookup rest k from by
          simp [dictLookup, hp]] at h
        exact List.mem_cons_of_mem _ (ih h)

theorem lookup_eq_some_of_mem (m : List (Date × MenuDay)) (k : Date) (v : MenuDay)
    (hnd : (m.map Prod.fst).Nodup) (h : (k, v) ∈ m) : dictLookup m k = some v := by
  induction m with
  | nil => simp at h
  | cons p rest ih =>
      rw [List.map_cons, List.nodup_cons] at hnd
      rcases List.mem_cons.mp h with rfl | h
      · simp [dictLookup]
      · have hp : ¬(p.1 = k) := by
          intro he
          exact hnd.1 (he ▸ List.mem_map_of_mem Prod.fst h)
        rw [show dictLookup (p :: rest) k = dictLookup rest k from by
          simp [dictLookup, hp]]
        exact ih hnd.2 h

theorem lastWithDate_mem (k : Date) :
    ∀ (L : List MenuDay) (x : MenuDay), lastWithDate k L = some x → x ∈ L := by
  intro L
  induction L with
  | nil => intro x h; simp [lastWithDate] at h
  | cons md rest ih =>
      intro x h
      simp only [lastWithDate] at h
      cases hl : lastWithDate k rest with
      | some y =>
          rw [hl] at h
          rw [Option.some.injEq] at h
          subst h
          exact List.mem_cons_of_mem _ (ih _ hl)
      | none =>
          rw [hl] at h
          by_cases hk : md.date = k
          · rw [if_pos hk, Option.some.injEq] at h
            subst h
            exact List.mem_cons_self _ _
          · rw [if_neg hk] at h
            simp at h

theorem mem_keptDays_range (lo hi : Date) :
    ∀ days md, md ∈ keptDays lo hi days → dateLe lo md.date ∧ dateLe md.date hi := by
  intro days
  induction days with
  | nil => intro md h; simp [keptDays] at h
  | cons day rest ih =>
      intro md h
      cases hp : parse_menu_day day with
      | error e =>
          rw [keptDays_cons_error _ _ _ _ _ hp] at h
          exact ih md h
      | ok o =>
          cases o with
          | none =>
              rw [keptDays_cons_none _ _ _ _ hp] at h
              exact ih md h
          | some md' =>
              by_cases hin : dateLe lo md'.date ∧ dateLe md'.date hi
              · rw [keptDays_cons_some_in _ _ _ _ _ hp hin] at h
                rcases List.mem_cons.mp h with rfl | h
                · exact hin
                · exact ih md h
              · rw [keptDays_cons_some_out _ _ _ _ _ hp hin] at h
                exact ih md h

theorem perm_insertSortedDate (k : Date) :
    ∀ l, (insertSortedDate k l).Perm (k :: l) := by
  intro l
  induction l with
  | nil => exact List.Perm.refl _
  | cons x rest ih =>
      by_cases h : dateLe k x
      · rw [show insertSortedDate k (x :: rest) = k :: x :: rest from by
          simp [insertSortedDate, h]]
      · rw [show insertSortedDate k (x :: rest) = x :: insertSortedDate k rest from by
          simp [insertSortedDate, h]]
        exact (ih.cons x).trans (List.Perm.swap k x rest)

theorem perm_sortDates : ∀ l : List Date, (sortDates l).Perm l := by
  intro l
  induction l with
  | nil => exact List.Perm.refl _
  | cons x rest ih =>
      rw [show sortDates (x :: rest) = insertSortedDate x (sortDates rest) from rfl]
      exact (perm_insertSortedDate x (sortDates rest)).trans (ih.cons x)

theorem sorted_insertSortedDate (k : Date) :
    ∀ l, l.Pairwise dateLe → (insertSortedDate k l).Pairwise dateLe := by
  intro l
  induction l with
  | nil => intro h; simp [insertSortedDate]
  | cons x rest ih =>
      intro h
      rw [List.pairwise_cons] at h
      by_cases hle : dateLe k x
      · rw [show insertSortedDate k (x :: rest) = k :: x :: rest from by
          simp [insertSortedDate, hle]]
        rw [List.pairwise_cons]
        refine ⟨?_, List.pairwise_cons.mpr h⟩
        intro y hy
        rcases List.mem_cons.mp hy with rfl | hy
        · exact hle
        · exact dateLe_trans hle (h.1 y hy)
      · have hxk : dateLe x k := (dateLe_total k x).resolve_left hle
        rw [show insertSortedDate k (x :: rest) = x :: insertSortedDate k rest from by
          simp [insertSortedDate, hle]]
        rw [List.pairwise_cons]
        refine ⟨?_, ih h.2⟩
        intro y hy
        have hy2 : y ∈ k :: rest := (perm_insertSortedDate k rest).mem_iff.mp hy
        rcases List.mem_cons.mp hy2 with rfl | hy3
        · exact hxk
        · exact h.1 y hy3

theorem sorted_sortDates : ∀ l : List Date, (sortDates l).Pairwise dateLe := by
  intro l
  induction l with
  | nil => simp [sortDates]
  | cons x rest ih => exact sorted_insertSortedDate x (sortDates rest) ih

theorem pairwise_lt_of_le_nodup :
    ∀ ks : List Date, ks.Pairwise dateLe → ks.Nodup → ks.Pairwise dateLt := by
  intro ks
  induction ks with
  | nil => intro _ _; exact List.Pairwise.nil
  | cons k rest ih =>
      intro hle hnd
      rw [List.pairwise_cons] at hle ⊢
      rw [List.nodup_cons] at hnd
      refine ⟨?_, ih hle.2 hnd.2⟩
      intro y hy
      refine dateLt_of_le_ne (hle.1 y hy) ?_
      intro he
      exact hnd.1 (he ▸ hy)

theorem lookup_entry_date (m : List (Date × MenuDay)) (k : Date) (v : MenuDay)
    (hinv : ∀ p ∈ m, p.1 = p.2.date) (h : dictLookup m k = some v) : v.date = k :=
  (hinv (k, v) (mem_of_lookup_eq_some m k v h)).symm

theorem pairwise_res (m : List (Date × MenuDay)) (hinv : ∀ p ∈ m, p.1 = p.2.date) :
    ∀ ks : List Date, ks.Pairwise dateLt →
      (ks.filterMap (dictLookup m)).Pairwise (fun a b => dateLt a.date b.date) := by
  intro ks
  induction ks with
  | nil => intro _; simp
  | cons k rest ih =>
      intro h
      rw [List.pairwise_cons] at h
      rw [List.filterMap_cons]
      cases hv : dictLookup m k with
      | none => exact ih h.2
      | some v =>
          rw [List.pairwise_cons]
          refine ⟨?_, ih h.2⟩
          intro w hw
          obtain ⟨k', hk', hl'⟩ := List.mem_filterMap.mp hw
          have hv_date := lookup_entry_date m k v hinv hv
          have hw_date := lookup_entry_date m k' w hinv hl'
          rw [hv_date, hw_date]
          exact h.1 k' hk'

/-- C9: when a school's pass succeeds, the event list handed to the
serializer is sorted in strictly ascending date order, contains only
`MenuDay`s with dates inside `[start_date, end_date]`, and holds exactly
the last in-range parsed `MenuDay` written for each date (last write wins
keyed by date, across all fetched weeks in processing order). -/
theorem claim_C9 (fetch : Nat → List RawDay) (lo hi : Date) (res : List MenuDay)
    (h : processSchool fetch lo hi = Except.ok res) :
    res.Pairwise (fun a b => dateLt a.date b.date) ∧
    (∀ md ∈ res, dateLe lo md.date ∧ dateLe md.date hi) ∧
    (∀ md, md ∈ res ↔
      lastWithDate md.date
        (keptDays lo hi ((weekStarts lo.ord hi.ord).flatMap fetch)) = some md) := by
  unfold processSchool at h
  cases hm : mergeDays lo hi ((weekStarts lo.ord hi.ord).flatMap fetch) [] with
  | error e =>
      rw [hm] at h
      simp at h
  | ok m =>
      rw [hm] at h
      simp only [Except.ok.injEq] at h
      subst h
      have hfold := mergeDays_ok lo hi ((weekStarts lo.ord hi.ord).flatMap fetch) [] m hm
      have hnd : (m.map Prod.fst).Nodup := by
        rw [hfold]
        exact foldl_nodupKeys _ [] (by simp)
      have hinv : ∀ p ∈ m, p.1 = p.2.date := by
        rw [hfold]
        exact foldl_entryInv _ [] (by simp)
      have hlk : ∀ k, dictLookup m k =
          lastWithDate k (keptDays lo hi ((weekStarts lo.ord hi.ord).flatMap fetch)) := by
        intro k
        rw [hfold, lookup_foldl]
        cases lastWithDate k (keptDays lo hi ((weekStarts lo.ord hi.ord).flatMap fetch)) <;>
          simp [dictLookup]
      have hmem : ∀ md, md ∈ (sortDates (m.map Prod.fst)).filterMap (dictLookup m) ↔
          lastWithDate md.date
            (keptDays lo hi ((weekStarts lo.ord hi.ord).flatMap fetch)) = some md := by
        intro md
        constructor
        · intro hin
          obtain ⟨k, hk, hl⟩ := List.mem_filterMap.mp hin
          have hdk := lookup_entry_date m k md hinv hl
          rw [← hlk, hdk]
          exact hl
        · intro hl
          have hlook : dictLookup m md.date = some md := by
            rw [hlk]
            exact hl
          have hmem' : (md.date, md) ∈ m := mem_of_lookup_eq_some _ _ _ hlook
          refine List.mem_filterMap.mpr ⟨md.date, ?_, hlook⟩
          have hkm : md.date ∈ m.map Prod.fst := List.mem_map_of_mem Prod.fst hmem'
          exact ((perm_sortDates (m.map Prod.fst)).mem_iff).mpr hkm
      refine ⟨?_, ?_, hmem⟩
      · have hsorted := sorted_sortDates (m.map Prod.fst)
        have hnd2 : (sortDates (m.map Prod.fst)).Nodup :=
          ((perm_sortDates _).nodup_iff).mpr hnd
        exact pairwise_res m hinv _ (pairwise_lt_of_le_nodup _ hsorted hnd2)
      · intro md hin
        exact mem_keptDays_range lo hi _ md (lastWithDate_mem _ _ _ ((hmem md).mp hin))

/-- Witness for C9 at a concrete two-week fetch where the second week
overwrites the first week's 2024-01-10 entry (last write wins). -/
theorem claim_C9_witness :
    processSchool wFetchC9 (Date.mk 2024 1 10) (Date.mk 2024 1 20) =
      Except.ok
        [MenuDay.mk (Date.mk 2024 1 10) ["Sushi".data] ["Sushi".data],
         MenuDay.mk (Date.mk 2024 1 15) ["Burger".data] ["Burger".data]] ∧
    (List.Pairwise (fun a b => dateLt a.date b.date)
        [MenuDay.mk (Date.mk 2024 1 10) ["Sushi".data] ["Sushi".data],
         MenuDay.mk (Date.mk 2024 1 15) ["Burger".data] ["Burger".data]] ∧
     (∀ md ∈ [MenuDay.mk (Date.mk 2024 1 10) ["Sushi".data] ["Sushi".data],
              MenuDay.mk (Date.mk 2024 1 15) ["Burger".data] ["Burger".data]],
        dateLe (Date.mk 2024 1 10) md.date ∧ dateLe md.date (Date.mk 2024 1 20)) ∧
     (∀ md, md ∈ [MenuDay.mk (Date.mk 2024 1 10) ["Sushi".data] ["Sushi".data],
                  MenuDay.mk (Date.mk 2024 1 15) ["Burger".data] ["Burger".data]] ↔
        lastWithDate md.date
          (keptDays (Date.mk 2024 1 10) (Date.mk 2024 1 20)
            ((weekStarts (Date.mk 2024 1 10).ord (Date.mk 2024 1 20).ord).flatMap
              wFetchC9)) = some md)) :=
  ⟨rfl, claim_C9 wFetchC9 (Date.mk 2024 1 10) (Date.mk 2024 1 20) _ rfl⟩
